import Mathlib

/-!
# wx/filesys.h : the virtual file system front-end

A shallow embedding of `wxFSFile` (the opened-file value object with its
manually managed stream pointer), of the location grammar used by
`wxFileSystemHandler`, of `wxFileSystem::ChangePathTo` and of the chroot
prefix of `wxLocalFSHandler`.

A `wxString` is a sequence of characters.  A `wxInputStream*` is either
`nullptr` (`none`) or the address of a stream object (`some a`).  The effect
of `delete` is recorded in a log of the addresses it was executed on, so that
"which streams were destroyed" and "was a stream destroyed twice" are
observable.
-/

namespace WxFileSys

/-- A `wxString`: its characters, in order. -/
abbrev wxString := List Char

/-- A `wxInputStream*`: `none` is `nullptr`, `some a` the stream object at address `a`. -/
abbrev StreamPtr := Option Nat

/-- A `wxDateTime` value, an opaque time stamp. -/
abbrev wxDateTime := Int

/-- The log of `delete` executions: the stream addresses destroyed so far, oldest first. -/
abbrev DeleteLog := List Nat

/-- The C++ `delete p;` on a stream pointer: a no-op on `nullptr`, otherwise the
stream object at `p` is destroyed (recorded at the end of the log). -/
def deleteStream (p : StreamPtr) (log : DeleteLog) : DeleteLog :=
  match p with
  | none => log
  | some a => log ++ [a]

/-- Modelled from the spec: `wxString::Lower()` (wx/string.h is not part of the
sources); the MIME type is a "lower-cased string", every character is
replaced by its lower-case counterpart. -/
def Lower (s : wxString) : wxString := s.map Char.toLower

/-- The data members of `wxFSFile`. -/
structure wxFSFile where
  m_Stream : StreamPtr
  m_Location : wxString
  m_MimeType : wxString
  m_Anchor : wxString
  m_Modif : wxDateTime
  deriving DecidableEq, Repr

namespace wxFSFile

/-- The constructor `wxFSFile(stream, loc, mimetype, anchor, modif)`. -/
def ctor (stream : StreamPtr) (loc mimetype anchor : wxString) (modif : wxDateTime) :
    wxFSFile :=
  { m_Location := loc
    m_MimeType := Lower mimetype
    m_Anchor := anchor
    m_Modif := modif
    m_Stream := stream }

/-- The destructor `~wxFSFile() { delete m_Stream; }`. -/
def dtor (f : wxFSFile) (log : DeleteLog) : DeleteLog :=
  deleteStream f.m_Stream log

/-- The accessor `GetStream()`. -/
def GetStream (f : wxFSFile) : StreamPtr := f.m_Stream

/-- The method `DetachStream()`: the returned pointer and the file afterwards. -/
def DetachStream (f : wxFSFile) : StreamPtr × wxFSFile :=
  let stream := f.m_Stream
  (stream, { f with m_Stream := none })

/-- The method `SetStream(stream)`: the file afterwards and the delete log afterwards. -/
def SetStream (f : wxFSFile) (stream : StreamPtr) (log : DeleteLog) :
    wxFSFile × DeleteLog :=
  let log1 := deleteStream f.m_Stream log
  ({ f with m_Stream := stream }, log1)

/-- The accessor `GetLocation()`. -/
def GetLocation (f : wxFSFile) : wxString := f.m_Location

/-- The accessor `GetAnchor()`. -/
def GetAnchor (f : wxFSFile) : wxString := f.m_Anchor

/-- The accessor `GetModificationTime()`. -/
def GetModificationTime (f : wxFSFile) : wxDateTime := f.m_Modif

end wxFSFile

/-- A call on a `wxFSFile` made by client code. -/
inductive FileOp where
  | getStream
  | detachStream
  | setStream (s : StreamPtr)
  deriving DecidableEq, Repr

/-- A file together with the delete log of the program. -/
abbrev FileState := wxFSFile × DeleteLog

/-- One call, on the file and log. -/
def stepOp (st : FileState) : FileOp → FileState
  | FileOp.getStream => st
  | FileOp.detachStream => ((wxFSFile.DetachStream st.1).2, st.2)
  | FileOp.setStream s => wxFSFile.SetStream st.1 s st.2

/-- A sequence of calls, first to last. -/
def runOps (st : FileState) (ops : List FileOp) : FileState :=
  ops.foldl stepOp st

/-- The stream pointer is null or points to a stream no `delete` was executed on. -/
def liveOrNull (p : StreamPtr) (log : DeleteLog) : Bool :=
  match p with
  | none => true
  | some a => decide (a ∉ log)

/-- Every `SetStream` argument of the sequence is, at the moment of its call,
null or a live stream other than the one the file holds. -/
def argsOwned (st : FileState) : List FileOp → Bool
  | [] => true
  | FileOp.setStream s :: ops =>
      (s == none || (liveOrNull s st.2 && s != st.1.m_Stream))
        && argsOwned (stepOp st (FileOp.setStream s)) ops
  | op :: ops => argsOwned (stepOp st op) ops

/-- The ownership invariant: the log has no address twice and the held stream is
not in it. -/
def ownsLive (st : FileState) : Prop :=
  st.2.Nodup ∧ ∀ a, st.1.m_Stream = some a → a ∉ st.2

/-! ## The location grammar (`wxFileSystemHandler`)

Only the declarations and the comments of `GetProtocol`, `GetLeftLocation`,
`GetAnchor` and `GetRightLocation` are in the header; their bodies are in a
source file that is not available, so they are modelled from the specification
of the location grammar. -/

/-- Splits a string at its last character satisfying `p` (which may look at the
character's index, counted from `i`): the text before it and the text after
it; `none` when no character satisfies `p`. -/
def splitAtLastFrom (p : Nat → Char → Bool) (i : Nat) :
    List Char → Option (List Char × List Char)
  | [] => none
  | c :: cs =>
    match splitAtLastFrom p (i + 1) cs with
    | some (l, r) => some (c :: l, r)
    | none => if p i c then some ([], cs) else none

/-- Splits a string at its last `'#'`. -/
def splitAtLastHash (loc : wxString) : Option (wxString × wxString) :=
  splitAtLastFrom (fun _ c => c == '#') 0 loc

/-- Modelled from the spec: part of the missing body of `GetProtocol`.  The
character at index `i` of `loc` is a `':'` that ends a protocol identifier: a
`':'` which is not the colon of a Windows-style drive letter (a letter at the
start of the string followed by `':'`). -/
def isProtocolColon (loc : wxString) (i : Nat) (c : Char) : Bool :=
  c == ':' && !(i == 1 && loc.head?.any Char.isAlpha)

/-- Splits a location at its rightmost protocol colon. -/
def splitAtProtocolColon (loc : wxString) : Option (wxString × wxString) :=
  splitAtLastFrom (isProtocolColon loc) 0 loc

/-- Modelled from the spec: part of the missing body of `GetLeftLocation`.  The
whole string up to a plain anchor: the text before the last `'#'` when
no `':'` stands to its right, otherwise the whole string. -/
def stripPlainAnchor (loc : wxString) : wxString :=
  match splitAtLastHash loc with
  | some (l, r) => if r.contains ':' then loc else l
  | none => loc

namespace wxFileSystemHandler

/-- Modelled from the spec: the body of `wxFileSystemHandler::GetProtocol` is
missing.  "Scans for the rightmost occurrence of `':'` that is not part of a
Windows-style drive letter ...; returns the substring between the preceding
`'#'` (or start) and that `':'`.  Returns empty if no protocol present." -/
def GetProtocol (location : wxString) : wxString :=
  match splitAtProtocolColon location with
  | none => []
  | some (before, _) =>
    match splitAtLastHash before with
    | some (_, protocol) => protocol
    | none => before

/-- Modelled from the spec: the body of `wxFileSystemHandler::GetLeftLocation`
is missing.  It "strips the final `#protocol:right` suffix if a nested
protocol chain exists, else returns the whole string up to any plain anchor". -/
def GetLeftLocation (location : wxString) : wxString :=
  match splitAtProtocolColon location with
  | none => stripPlainAnchor location
  | some (before, _) =>
    match splitAtLastHash before with
    | some (left, _) => left
    | none => stripPlainAnchor location

/-- Modelled from the spec: the body of `wxFileSystemHandler::GetAnchor` is
missing.  "The fragment after the final `'#'` that is not followed by a `':'`
pattern identifying a nested protocol"; the header: an anchor "in case there
is no `':'` in the string to the right from it". -/
def GetAnchor (location : wxString) : wxString :=
  match splitAtLastHash location with
  | some (_, r) => if r.contains ':' then [] else r
  | none => []

/-- Modelled from the spec: the body of `wxFileSystemHandler::GetRightLocation`
is missing.  "The portion after the final protocol-chain `':'`"; a location
with no `':'` is returned unchanged. -/
def GetRightLocation (location : wxString) : wxString :=
  match splitAtProtocolColon location with
  | some (_, r) => r
  | none => location

end wxFileSystemHandler

/-! ## `wxFileSystem`: the current path

`GetPath` is in the header; the bodies of `ChangePathTo` and `OpenFile` are
not, and are modelled from the specification of the resolver. -/

/-- The data members of `wxFileSystem` that path resolution uses. -/
structure wxFileSystem where
  m_Path : wxString
  m_LastName : wxString
  deriving DecidableEq, Repr

/-- A registered handler, as the resolver uses it: `CanOpen(location)` and
`OpenFile(fs, location)`, the latter `none` when opening failed. -/
structure Handler where
  CanOpen : wxString → Bool
  OpenFile : wxFileSystem → wxString → Option wxFSFile

/-- Splits a string at its last `'/'`. -/
def splitAtLastSlash (loc : wxString) : Option (wxString × wxString) :=
  splitAtLastFrom (fun _ c => c == '/') 0 loc

/-- Modelled from the spec: part of the missing body of `ChangePathTo`.  A
directory location with its trailing separator ("trailing separator implied"): a `'/'` is appended to a
non-empty location that does not end in one. -/
def withTrailingSlash (loc : wxString) : wxString :=
  match loc.getLast? with
  | none => loc
  | some c => if c == '/' then loc else loc ++ ['/']

namespace wxFileSystem

/-- The accessor `GetPath()`. -/
def GetPath (fs : wxFileSystem) : wxString := fs.m_Path

/-- Modelled from the spec: the body of `wxFileSystem::ChangePathTo` is missing.
"If `isDirectory` is false, strips the trailing path component (file name)
and stores the remainder (with trailing separator) as current path; if true,
stores the location verbatim (separator-normalized) as current path." -/
def ChangePathTo (fs : wxFileSystem) (location : wxString) (is_dir : Bool) : wxFileSystem :=
  if is_dir then
    { fs with m_Path := withTrailingSlash location }
  else
    match splitAtLastSlash location with
    | some (dir, _) => { fs with m_Path := dir ++ ['/'] }
    | none => { fs with m_Path := [] }

/-- Modelled from the spec: handler selection, "first match wins - match meaning
`CanOpen` returns true", then that handler's open. -/
def openWith (fs : wxFileSystem) (handlers : List Handler) (location : wxString) :
    Option wxFSFile :=
  match handlers.find? (fun h => h.CanOpen location) with
  | some h => h.OpenFile fs location
  | none => none

/-- Modelled from the spec: the location of the relative attempt of `OpenFile`,
"relative to current path (concatenation)". -/
def relativeLocation (fs : wxFileSystem) (location : wxString) : wxString :=
  fs.GetPath ++ location

/-- Modelled from the spec: the body of `wxFileSystem::OpenFile` is missing.
It "first attempts resolution as relative to current path (concatenation),
consulting the registry" (local handlers before global ones); "if that
yields no match or the handler reports failure, retries treating `location`
as already absolute"; on success it "records the resolved full location as
last opened". -/
def OpenFile (fs : wxFileSystem) (localHandlers globalHandlers : List Handler)
    (location : wxString) : Option wxFSFile × wxFileSystem :=
  match openWith fs (localHandlers ++ globalHandlers) (relativeLocation fs location) with
  | some f => (some f, { fs with m_LastName := relativeLocation fs location })
  | none =>
    match openWith fs (localHandlers ++ globalHandlers) location with
    | some f => (some f, { fs with m_LastName := location })
    | none => (none, fs)

end wxFileSystem

/-! ## `wxLocalFSHandler`: the chroot prefix

`Chroot` is in the header; the bodies of `CanOpen`, `OpenFile`, `FindFirst` and
`FindNext` of `wxLocalFSHandler` are not and are modelled from the
specification of the chroot-restricted variant.  Storage is reached only
through the two primitives of `Storage`, each of which records the name it is
handed. -/

/-- The components of a path: the pieces between its `'/'` separators. -/
def splitPath : wxString → List wxString
  | [] => [[]]
  | c :: cs =>
    if c == '/' then [] :: splitPath cs
    else
      match splitPath cs with
      | [] => [[c]]
      | x :: xs => (c :: x) :: xs

/-- Modelled from the spec: part of the missing body of
`wxLocalFSHandler::OpenFile`.  Path-component normalization below a root: empty
and `"."` components are dropped, a `".."` removes the component before it, and a `".."` with nothing
left to remove would leave the root: `none`. -/
def normalizeFrom (stack : List wxString) : List wxString → Option (List wxString)
  | [] => some stack.reverse
  | c :: cs =>
    if c = [] ∨ c = ['.'] then normalizeFrom stack cs
    else if c = ['.', '.'] then
      match stack with
      | [] => none
      | _ :: st => normalizeFrom st cs
    else normalizeFrom (c :: stack) cs

/-- The absolute path with the given components: `/c1/c2/...`. -/
def joinAbs : List wxString → wxString
  | [] => []
  | c :: cs => '/' :: c ++ joinAbs cs

/-- The storage primitives the local handler consults (external collaborators):
opening an existing file by name (its stream and modification time), and
listing the entries that match a wildcard name under the given flags. -/
structure Storage where
  openFile : wxString → Option (Nat × wxDateTime)
  findFiles : wxString → Int → List wxString

namespace Storage

/-- Opening `name` on storage: the answer, and the name handed to storage. -/
def openAt (st : Storage) (name : wxString) : Option (Nat × wxDateTime) × List wxString :=
  (st.openFile name, [name])

/-- Listing the matches of `name` on storage: the answer, and the name handed to
storage. -/
def findAt (st : Storage) (name : wxString) (flags : Int) :
    List wxString × List wxString :=
  (st.findFiles name flags, [name])

end Storage

/-- The state of `wxLocalFSHandler`: its static member `ms_root` and, modelled
from the spec ("each handler owns its own iteration cursor"), the matches of
the running enumeration not yet returned. -/
structure wxLocalFSHandler where
  ms_root : wxString
  cursor : List wxString
  deriving DecidableEq, Repr

namespace wxLocalFSHandler

/-- The static method `Chroot(root)`: `ms_root = root`. -/
def Chroot (h : wxLocalFSHandler) (root : wxString) : wxLocalFSHandler :=
  { h with ms_root := root }

/-- Modelled from the spec: `wxLocalFSHandler::CanOpen` (its body is missing).
"`CanOpen` accepts default/`file` protocol only"; it is a "syntactic-only
check" that "must not touch backing storage". -/
def CanOpen (_h : wxLocalFSHandler) (location : wxString) : Bool :=
  wxFileSystemHandler.GetProtocol location == "file".toList
    || wxFileSystemHandler.GetProtocol location == []

/-- Modelled from the spec: the file name the local handler uses on disk for a
location (the bodies of `OpenFile` and `FindFirst` are missing).  The
chroot-restricted variant "prefixes every resolved absolute path with a fixed
root string before touching storage, and rejects (treats as not-found) any
resolution that would escape the root via `..` traversal", "enforced by
path-component normalization". -/
def diskName (h : wxLocalFSHandler) (location : wxString) : Option wxString :=
  match normalizeFrom [] (splitPath (wxFileSystemHandler.GetRightLocation location)) with
  | some comps => some (h.ms_root ++ joinAbs comps)
  | none => none

/-- Modelled from the spec: `wxLocalFSHandler::OpenFile` (its body is missing):
the file, and the names handed to storage.  `mimeOf` stands for
`GetMimeTypeFromExt`.  A rejected location touches no storage. -/
def OpenFile (h : wxLocalFSHandler) (st : Storage) (mimeOf : wxString → wxString)
    (location : wxString) : Option wxFSFile × List wxString :=
  match diskName h location with
  | none => (none, [])
  | some full =>
    match st.openAt full with
    | (some (stream, modif), accessed) =>
      (some (wxFSFile.ctor (some stream) location (mimeOf location)
        (wxFileSystemHandler.GetAnchor location) modif), accessed)
    | (none, accessed) => (none, accessed)

/-- Modelled from the spec: `wxLocalFSHandler::FindFirst` (its body is missing):
the first match (empty when there is none), the handler with its cursor reset
to the remaining matches, and the names handed to storage.  "Enumeration
delegates to the underlying directory-listing primitive"; "a new `FindFirst`
resets" the cursor; a rejected wildcard touches no storage. -/
def FindFirst (h : wxLocalFSHandler) (st : Storage) (spec : wxString) (flags : Int) :
    wxString × wxLocalFSHandler × List wxString :=
  match diskName h spec with
  | none => ([], { h with cursor := [] }, [])
  | some full =>
    match st.findAt full flags with
    | ([], accessed) => ([], { h with cursor := [] }, accessed)
    | (found :: rest, accessed) => (found, { h with cursor := rest }, accessed)

/-- Modelled from the spec: `wxLocalFSHandler::FindNext` (its body is missing):
the next match of the running enumeration, empty "to signal exhaustion"; it
is handed no name and reads the cursor only. -/
def FindNext (h : wxLocalFSHandler) : wxString × wxLocalFSHandler :=
  match h.cursor with
  | [] => ([], h)
  | found :: rest => (found, { h with cursor := rest })

end wxLocalFSHandler

/-- A call of one of the four methods of `wxLocalFSHandler`. -/
inductive LocalCall where
  | canOpen (location : wxString)
  | openFile (location : wxString)
  | findFirst (spec : wxString) (flags : Int)
  | findNext
  deriving DecidableEq, Repr

/-- One call on the handler: the handler afterwards and the names the call
handed to storage (`CanOpen` and `FindNext` are given no storage). -/
def stepCall (st : Storage) (mimeOf : wxString → wxString) (h : wxLocalFSHandler) :
    LocalCall → wxLocalFSHandler × List wxString
  | LocalCall.canOpen _ => (h, [])
  | LocalCall.openFile location => (h, (h.OpenFile st mimeOf location).2)
  | LocalCall.findFirst spec flags =>
      ((h.FindFirst st spec flags).2.1, (h.FindFirst st spec flags).2.2)
  | LocalCall.findNext => ((h.FindNext).2, [])

/-- A sequence of calls, first to last: the handler afterwards and every name
handed to storage, in order. -/
def runCalls (st : Storage) (mimeOf : wxString → wxString) (h : wxLocalFSHandler) :
    List LocalCall → wxLocalFSHandler × List wxString
  | [] => (h, [])
  | c :: cs =>
    ((runCalls st mimeOf (stepCall st mimeOf h c).1 cs).1,
      (stepCall st mimeOf h c).2 ++ (runCalls st mimeOf (stepCall st mimeOf h c).1 cs).2)


/-- One step of resolving a path on disk: empty and `"."` components stay in
place, `".."` goes to the parent directory (the top directory is its own
parent), a name enters that directory. -/
def canonStep (stack : List wxString) (c : wxString) : List wxString :=
  if c = [] ∨ c = ['.'] then stack
  else if c = ['.', '.'] then stack.tail
  else c :: stack

/-- The directory components a path on disk resolves to. -/
def canonical (path : wxString) : List wxString :=
  ((splitPath path).foldl canonStep []).reverse

/-- The file name `path` lies inside the directory `root`: what it resolves to
starts with what `root` resolves to. -/
def insideRoot (root path : wxString) : Prop :=
  canonical root <+: canonical path

/-- Two storages answer alike on every name that starts with `root` and lies
inside `root`. -/
def agreeInside (root : wxString) (st st2 : Storage) : Prop :=
  ∀ name, root <+: name → insideRoot root name →
    st.openFile name = st2.openFile name
      ∧ ∀ flags, st.findFiles name flags = st2.findFiles name flags

/-- The `".."` components of a request climb above the directory it starts in:
at some component, more `".."` than names have been read. -/
def climbsFrom (depth : Nat) : List wxString → Bool
  | [] => false
  | c :: cs =>
    if c = [] ∨ c = ['.'] then climbsFrom depth cs
    else if c = ['.', '.'] then
      match depth with
      | 0 => true
      | d + 1 => climbsFrom d cs
    else climbsFrom (depth + 1) cs

/-- The request climbs above the root. -/
def climbsAboveRoot (request : wxString) : Bool :=
  climbsFrom 0 (splitPath request)

/-- A component that names a directory entry: not empty, not `"."`, not `".."`,
and free of `'/'`. -/
def plainName (c : wxString) : Prop :=
  ¬ (c = [] ∨ c = ['.']) ∧ c ≠ ['.', '.'] ∧ ∀ d ∈ c, d ≠ '/'

/-! ## Theorems -/

/-! ### Helper lemmas -/

theorem toNat_ofNat_small (n : Nat) (h : n < 0xd800) : (Char.ofNat n).toNat = n := by
  unfold Char.ofNat
  have hv : n.isValidChar := Or.inl h
  simp only [hv, Char.ofNatAux, Char.toNat, dite_true]
  rfl

theorem isUpper_iff (c : Char) : c.isUpper = true ↔ 65 ≤ c.toNat ∧ c.toNat ≤ 90 := by
  unfold Char.isUpper Char.toNat
  simp only [ge_iff_le, Bool.and_eq_true, decide_eq_true_eq, UInt32.le_def]
  rfl

theorem not_isUpper_toLower (c : Char) : (Char.toLower c).isUpper = false := by
  rw [Bool.eq_false_iff, Ne, isUpper_iff]
  unfold Char.toLower
  simp only []
  split
  · rename_i h
    rw [toNat_ofNat_small _ (by omega)]
    omega
  · rename_i h
    exact h

theorem toLower_toLower (c : Char) : Char.toLower (Char.toLower c) = Char.toLower c := by
  have h := not_isUpper_toLower c
  rw [Bool.eq_false_iff, Ne, isUpper_iff] at h
  generalize Char.toLower c = d at h
  unfold Char.toLower
  simp only []
  rw [if_neg h]

theorem Lower_Lower (s : wxString) : Lower (Lower s) = Lower s := by
  unfold Lower
  rw [List.map_map]
  apply List.map_congr_left
  intro c _
  exact toLower_toLower c

theorem deleteStream_eq (p : StreamPtr) (log : DeleteLog) :
    deleteStream p log = log ++ p.toList := by
  cases p <;> simp [deleteStream]

theorem runOps_cons (st : FileState) (op : FileOp) (ops : List FileOp) :
    runOps st (op :: ops) = runOps (stepOp st op) ops := rfl

/-- Without a `DetachStream()` call, a non-null stream the file once held stays
held or has been destroyed. -/
theorem held_or_destroyed (ops : List FileOp) (st : FileState) (a : Nat)
    (hno : ∀ op ∈ ops, op ≠ FileOp.detachStream)
    (h : st.1.m_Stream = some a ∨ a ∈ st.2) :
    (runOps st ops).1.m_Stream = some a ∨ a ∈ (runOps st ops).2 := by
  induction ops generalizing st with
  | nil => exact h
  | cons op ops ih =>
    rw [runOps_cons]
    apply ih
    · intro o ho
      exact hno o (List.mem_cons_of_mem _ ho)
    · cases op with
      | getStream => exact h
      | detachStream => exact absurd rfl (hno _ (List.mem_cons_self _ _))
      | setStream s =>
        right
        rcases h with h | h
        · simp [stepOp, wxFSFile.SetStream, h, deleteStream]
        · simp only [stepOp, wxFSFile.SetStream, deleteStream_eq]
          exact List.mem_append_left _ h

theorem ownsLive_run (ops : List FileOp) (st : FileState)
    (hinv : ownsLive st) (hargs : argsOwned st ops = true) :
    ownsLive (runOps st ops) := by
  induction ops generalizing st with
  | nil => exact hinv
  | cons op ops ih =>
    rw [runOps_cons]
    obtain ⟨hnd, hheld⟩ := hinv
    cases op with
    | getStream =>
      exact ih _ ⟨hnd, hheld⟩ (by simpa [argsOwned] using hargs)
    | detachStream =>
      refine ih _ ⟨hnd, ?_⟩ (by simpa [argsOwned] using hargs)
      intro a ha
      simp [stepOp, wxFSFile.DetachStream] at ha
    | setStream s =>
      simp only [argsOwned, Bool.and_eq_true] at hargs
      refine ih _ ⟨?_, ?_⟩ hargs.2
      · simp only [stepOp, wxFSFile.SetStream, deleteStream_eq]
        cases hm : st.1.m_Stream with
        | none => simpa using hnd
        | some b =>
          have hb := hheld b hm
          simp only [Option.toList]
          exact List.Nodup.append hnd (List.nodup_singleton b) (by simpa using hb)
      · intro a ha
        have hs : s = some a := by simpa [stepOp, wxFSFile.SetStream] using ha
        subst hs
        have h1 := hargs.1
        simp only [Bool.or_eq_true, beq_iff_eq, Bool.and_eq_true, liveOrNull,
          bne_iff_ne, ne_eq, reduceCtorEq, false_or, decide_eq_true_eq] at h1
        simp only [stepOp, wxFSFile.SetStream, deleteStream_eq]
        intro hmem
        rcases List.mem_append.mp hmem with h | h
        · exact h1.1 h
        · cases hm : st.1.m_Stream with
          | none => simp [hm] at h
          | some b =>
            simp [hm] at h
            exact h1.2 (by rw [hm, h])

/-! ### wxFSFile: stream ownership -/

/-- C1: `DetachStream()` returns exactly the stream the file holds (null
included), `GetStream()` is null right afterwards, the call executes no
`delete` (the log is the same), and location, MIME type, anchor and
modification time are unchanged. -/
theorem C1_detach_returns_held_and_nulls (f : wxFSFile) (log : DeleteLog) :
    (f.DetachStream).1 = f.GetStream
      ∧ (f.DetachStream).2.GetStream = none
      ∧ (stepOp (f, log) FileOp.detachStream).2 = log
      ∧ (stepOp (f, log) FileOp.detachStream).1 = (f.DetachStream).2
      ∧ (f.DetachStream).2.GetLocation = f.GetLocation
      ∧ (f.DetachStream).2.m_MimeType = f.m_MimeType
      ∧ (f.DetachStream).2.GetAnchor = f.GetAnchor
      ∧ (f.DetachStream).2.GetModificationTime = f.GetModificationTime :=
  ⟨rfl, rfl, rfl, rfl, rfl, rfl, rfl, rfl⟩

/-- C2: the destructor destroys exactly the stream held at that moment: the log
grows by the held stream (by nothing when it is null); a file destroyed right
after construction destroys the constructor's stream; after any calls without
a `DetachStream()` the constructor's stream is destroyed once the file is;
and a file destroyed after `DetachStream()` destroys nothing. -/
theorem C2_dtor_destroys_exactly_held (f : wxFSFile) (log : DeleteLog)
    (s : StreamPtr) (loc m a : wxString) (t : wxDateTime) (ops : List FileOp)
    (hno : ∀ op ∈ ops, op ≠ FileOp.detachStream) :
    f.dtor log = log ++ f.GetStream.toList
      ∧ (wxFSFile.ctor s loc m a t).dtor log = log ++ s.toList
      ∧ (∀ x, s = some x →
          x ∈ (runOps (wxFSFile.ctor s loc m a t, log) ops).1.dtor
                (runOps (wxFSFile.ctor s loc m a t, log) ops).2)
      ∧ (f.DetachStream).2.dtor log = log := by
  refine ⟨deleteStream_eq _ _, deleteStream_eq _ _, ?_, rfl⟩
  intro x hx
  have h := held_or_destroyed ops (wxFSFile.ctor s loc m a t, log) x hno
    (Or.inl (by simp [wxFSFile.ctor, hx]))
  simp only [wxFSFile.dtor, deleteStream_eq]
  rcases h with h | h
  · rw [h]; simp
  · exact List.mem_append_left _ h

/-- Witness of C2: a file built on stream 7, then `GetStream()` and `SetStream(8)`. -/
theorem C2_dtor_destroys_exactly_held_witness :
    (wxFSFile.ctor (some 7) ['a'] ['T'] [] 0).dtor [] = [] ++ (some 7 : StreamPtr).toList
      ∧ (∀ x, (some 7 : StreamPtr) = some x →
          x ∈ (runOps (wxFSFile.ctor (some 7) ['a'] ['T'] [] 0, [])
                [FileOp.getStream, FileOp.setStream (some 8)]).1.dtor
                (runOps (wxFSFile.ctor (some 7) ['a'] ['T'] [] 0, [])
                [FileOp.getStream, FileOp.setStream (some 8)]).2) :=
  have h := C2_dtor_destroys_exactly_held (wxFSFile.ctor (some 7) ['a'] ['T'] [] 0) []
    (some 7) ['a'] ['T'] [] 0 [FileOp.getStream, FileOp.setStream (some 8)] (by decide)
  ⟨h.2.1, h.2.2.1⟩

/-- C3: the constructor stores the stream, location, anchor and modification
time as given and the MIME type converted to lower case; hence `m` and
`Lower m` give the same stored MIME type, which has no upper-case letter. -/
theorem C3_ctor_fields (s : StreamPtr) (loc m a : wxString) (t : wxDateTime) :
    (wxFSFile.ctor s loc m a t).GetStream = s
      ∧ (wxFSFile.ctor s loc m a t).GetLocation = loc
      ∧ (wxFSFile.ctor s loc m a t).GetAnchor = a
      ∧ (wxFSFile.ctor s loc m a t).GetModificationTime = t
      ∧ (wxFSFile.ctor s loc m a t).m_MimeType = Lower m
      ∧ (wxFSFile.ctor s loc (Lower m) a t).m_MimeType
          = (wxFSFile.ctor s loc m a t).m_MimeType
      ∧ ∀ c ∈ (wxFSFile.ctor s loc m a t).m_MimeType, c.isUpper = false := by
  refine ⟨rfl, rfl, rfl, rfl, rfl, Lower_Lower m, ?_⟩
  intro c hc
  simp only [wxFSFile.ctor, Lower, List.mem_map] at hc
  obtain ⟨d, _, rfl⟩ := hc
  exact not_isUpper_toLower d

/-- C4: `SetStream(s)` executes `delete` on the stream held before and on nothing
else, then holds `s`; location, MIME type, anchor and modification time are
unchanged. -/
theorem C4_setStream (f : wxFSFile) (s : StreamPtr) (log : DeleteLog) :
    (f.SetStream s log).1.GetStream = s
      ∧ (f.SetStream s log).2 = log ++ f.GetStream.toList
      ∧ (∀ old, f.GetStream = some old → old ∈ (f.SetStream s log).2)
      ∧ (∀ x, x ∈ (f.SetStream s log).2 → x ∉ log → f.GetStream = some x)
      ∧ (f.SetStream s log).1.GetLocation = f.GetLocation
      ∧ (f.SetStream s log).1.m_MimeType = f.m_MimeType
      ∧ (f.SetStream s log).1.GetAnchor = f.GetAnchor
      ∧ (f.SetStream s log).1.GetModificationTime = f.GetModificationTime := by
  refine ⟨rfl, deleteStream_eq _ _, ?_, ?_, rfl, rfl, rfl, rfl⟩
  · intro old h
    simp only [wxFSFile.SetStream, deleteStream_eq]
    simp only [wxFSFile.GetStream] at h
    rw [h]; simp
  · intro x hx hnot
    simp only [wxFSFile.SetStream, deleteStream_eq] at hx
    rcases List.mem_append.mp hx with h | h
    · exact absurd h hnot
    · simp only [wxFSFile.GetStream]
      cases hm : f.m_Stream with
      | none => simp [hm] at h
      | some b =>
        simp [hm] at h
        rw [h]

/-- C5: a second `DetachStream()` in a row returns null and leaves the file as
the first one left it, neither call executes a `delete`, and destroying the
file afterwards destroys nothing. -/
theorem C5_double_detach (f : wxFSFile) (log : DeleteLog) :
    ((f.DetachStream).2.DetachStream).1 = none
      ∧ ((f.DetachStream).2.DetachStream).2 = (f.DetachStream).2
      ∧ runOps (f, log) [FileOp.detachStream, FileOp.detachStream]
          = ((f.DetachStream).2, log)
      ∧ ((f.DetachStream).2.DetachStream).2.dtor log = log :=
  ⟨rfl, rfl, rfl, rfl⟩

/-- C10, as stated, fails: a file built on the live stream 1 and given
`SetStream(1)` holds stream 1, on which `delete` was executed, and its
destructor executes `delete` on it a second time; likewise after
`SetStream(2)`, which destroys stream 1, `SetStream(1)` makes the file hold
the destroyed stream 1. -/
theorem C10_counterexample :
    ((runOps (wxFSFile.ctor (some 1) [] [] [] 0, []) [FileOp.setStream (some 1)]).1.GetStream
        = some 1
      ∧ (runOps (wxFSFile.ctor (some 1) [] [] [] 0, []) [FileOp.setStream (some 1)]).2 = [1]
      ∧ liveOrNull
          (runOps (wxFSFile.ctor (some 1) [] [] [] 0, []) [FileOp.setStream (some 1)]).1.GetStream
          (runOps (wxFSFile.ctor (some 1) [] [] [] 0, []) [FileOp.setStream (some 1)]).2 = false
      ∧ (runOps (wxFSFile.ctor (some 1) [] [] [] 0, []) [FileOp.setStream (some 1)]).1.dtor
          (runOps (wxFSFile.ctor (some 1) [] [] [] 0, []) [FileOp.setStream (some 1)]).2 = [1, 1])
    ∧ ((runOps (wxFSFile.ctor (some 1) [] [] [] 0, [])
          [FileOp.setStream (some 2), FileOp.setStream (some 1)]).1.GetStream = some 1
      ∧ (runOps (wxFSFile.ctor (some 1) [] [] [] 0, [])
          [FileOp.setStream (some 2), FileOp.setStream (some 1)]).2 = [1, 2]
      ∧ (runOps (wxFSFile.ctor (some 1) [] [] [] 0, [])
          [FileOp.setStream (some 2), FileOp.setStream (some 1)]).1.dtor
          (runOps (wxFSFile.ctor (some 1) [] [] [] 0, [])
          [FileOp.setStream (some 2), FileOp.setStream (some 1)]).2 = [1, 2, 1]) := by
  decide

/-- C10, amended: when every `SetStream` argument is, at its call, null or a live
stream other than the one held, every state reached from construction on a
live stream holds null or a stream not destroyed, no stream is destroyed
twice, and the destructor destroys no stream a second time. -/
theorem C10_ownership_invariant (a : Nat) (loc m anc : wxString) (t : wxDateTime)
    (ops : List FileOp)
    (hargs : argsOwned (wxFSFile.ctor (some a) loc m anc t, []) ops = true) :
    liveOrNull (runOps (wxFSFile.ctor (some a) loc m anc t, []) ops).1.GetStream
        (runOps (wxFSFile.ctor (some a) loc m anc t, []) ops).2 = true
      ∧ ((runOps (wxFSFile.ctor (some a) loc m anc t, []) ops).1.dtor
          (runOps (wxFSFile.ctor (some a) loc m anc t, []) ops).2).Nodup := by
  have hinv := ownsLive_run ops (wxFSFile.ctor (some a) loc m anc t, [])
    ⟨List.nodup_nil, fun _ _ => List.not_mem_nil _⟩ hargs
  obtain ⟨hnd, hheld⟩ := hinv
  generalize runOps (wxFSFile.ctor (some a) loc m anc t, []) ops = st at hnd hheld
  constructor
  · simp only [wxFSFile.GetStream, liveOrNull]
    cases hm : st.1.m_Stream with
    | none => rfl
    | some b => simpa using hheld b hm
  · simp only [wxFSFile.dtor, deleteStream_eq]
    cases hm : st.1.m_Stream with
    | none => simpa using hnd
    | some b =>
      simp only [Option.toList]
      exact List.Nodup.append hnd (List.nodup_singleton b) (by simpa using hheld b hm)

/-- Witness of the amended C10: detach, set stream 2, set null, set stream 1 back. -/
theorem C10_ownership_invariant_witness :
    argsOwned (wxFSFile.ctor (some 1) ['x'] ['M'] [] 0, [])
        [FileOp.detachStream, FileOp.setStream (some 2), FileOp.getStream,
          FileOp.setStream none, FileOp.setStream (some 1)] = true
      ∧ liveOrNull (runOps (wxFSFile.ctor (some 1) ['x'] ['M'] [] 0, [])
          [FileOp.detachStream, FileOp.setStream (some 2), FileOp.getStream,
            FileOp.setStream none, FileOp.setStream (some 1)]).1.GetStream
          (runOps (wxFSFile.ctor (some 1) ['x'] ['M'] [] 0, [])
          [FileOp.detachStream, FileOp.setStream (some 2), FileOp.getStream,
            FileOp.setStream none, FileOp.setStream (some 1)]).2 = true :=
  ⟨by decide, (C10_ownership_invariant 1 ['x'] ['M'] [] 0
    [FileOp.detachStream, FileOp.setStream (some 2), FileOp.getStream,
      FileOp.setStream none, FileOp.setStream (some 1)] (by decide)).1⟩

/-! ### The location grammar -/

theorem splitAtLastFrom_none (p : Nat → Char → Bool) (r : List Char)
    (hr : ∀ j, ∀ x ∈ r, p j x = false) (i : Nat) :
    splitAtLastFrom p i r = none := by
  induction r generalizing i with
  | nil => rfl
  | cons c cs ih =>
    have h1 := ih (fun j x hx => hr j x (List.mem_cons_of_mem _ hx)) (i + 1)
    simp [splitAtLastFrom, h1, hr i c (List.mem_cons_self _ _)]

theorem splitAtLastFrom_append_cons (p : Nat → Char → Bool) (l r : List Char) (c : Char)
    (i : Nat) (hc : p (i + l.length) c = true) (hr : ∀ j, ∀ x ∈ r, p j x = false) :
    splitAtLastFrom p i (l ++ c :: r) = some (l, r) := by
  induction l generalizing i with
  | nil =>
    have h := splitAtLastFrom_none p r hr (i + 1)
    simp only [List.nil_append, splitAtLastFrom, h]
    simp only [List.length_nil, Nat.add_zero] at hc
    simp [hc]
  | cons d ds ih =>
    have h := ih (i + 1) (by simpa [Nat.add_assoc, Nat.add_comm 1] using hc)
    simp [splitAtLastFrom, h]

theorem splitAtLastFrom_append_right (p : Nat → Char → Bool) (l r : List Char)
    (hr : ∀ j, ∀ x ∈ r, p j x = false) (i : Nat) :
    splitAtLastFrom p i (l ++ r)
      = (splitAtLastFrom p i l).map (fun q => (q.1, q.2 ++ r)) := by
  induction l generalizing i with
  | nil => simp [splitAtLastFrom, splitAtLastFrom_none p r hr i]
  | cons d ds ih =>
    have h1 := ih (i + 1)
    cases h : splitAtLastFrom p (i + 1) ds with
    | some q =>
      rw [h] at h1
      simp [splitAtLastFrom, h, h1]
    | none =>
      rw [h] at h1
      simp only [Option.map_none'] at h1
      rw [List.cons_append, splitAtLastFrom, splitAtLastFrom, h, h1]
      by_cases hp : p i d = true <;> simp [hp]

theorem splitAtLastFrom_prefix (p : Nat → Char → Bool) (l a b : List Char) (i : Nat)
    (h : splitAtLastFrom p i l = some (a, b)) : ∃ c, l = a ++ c :: b := by
  induction l generalizing i a with
  | nil => simp [splitAtLastFrom] at h
  | cons d ds ih =>
    simp only [splitAtLastFrom] at h
    cases h1 : splitAtLastFrom p (i + 1) ds with
    | some q =>
      obtain ⟨a1, b1⟩ := q
      rw [h1] at h
      simp only [Option.some.injEq, Prod.mk.injEq] at h
      obtain ⟨c, hc⟩ := ih a1 (i + 1) (by rw [h1, h.2])
      exact ⟨c, by rw [← h.1, hc]; rfl⟩
    | none =>
      rw [h1] at h
      simp only at h
      split at h
      · simp only [Option.some.injEq, Prod.mk.injEq] at h
        exact ⟨d, by rw [← h.1, ← h.2]; rfl⟩
      · exact absurd h (by simp)

theorem contains_colon_false (r : List Char) (hr : ∀ x ∈ r, x ≠ ':') :
    r.contains ':' = false := by
  rw [Bool.eq_false_iff]
  intro h
  rw [List.contains_iff_exists_mem_beq] at h
  obtain ⟨x, hx, hb⟩ := h
  have : ':' = x := by simpa using hb
  exact hr x hx this.symm

theorem splitAtLastHash_append_cons (l r : List Char) (hr : ∀ x ∈ r, x ≠ '#') :
    splitAtLastHash (l ++ '#' :: r) = some (l, r) := by
  apply splitAtLastFrom_append_cons
  · simp
  · intro _ x hx
    simpa using hr x hx

theorem stripPlainAnchor_append_cons (l r : List Char) (hr : ∀ x ∈ r, x ≠ ':' ∧ x ≠ '#') :
    stripPlainAnchor (l ++ '#' :: r) = l := by
  simp only [stripPlainAnchor, splitAtLastHash_append_cons l r (fun x hx => (hr x hx).2),
    contains_colon_false r (fun x hx => (hr x hx).1), Bool.false_eq_true, if_false]

open wxFileSystemHandler in
/-- C6: a location `L#p:R` with `p` a non-empty protocol name (no `':'`, no
`'#'`) and `R` free of `':'` and `'#'` decomposes into protocol `p`, left
location `L`, right location `R` and an empty anchor; the two locations of
the header and of the specification decompose as stated. -/
theorem C6_chained_decomposition (L p R : wxString) (hp : p ≠ [])
    (hpc : ∀ c ∈ p, c ≠ ':' ∧ c ≠ '#') (hR : ∀ c ∈ R, c ≠ ':' ∧ c ≠ '#') :
    (GetProtocol (L ++ '#' :: p ++ ':' :: R) = p
      ∧ GetLeftLocation (L ++ '#' :: p ++ ':' :: R) = L
      ∧ GetRightLocation (L ++ '#' :: p ++ ':' :: R) = R
      ∧ GetAnchor (L ++ '#' :: p ++ ':' :: R) = [])
    ∧ (GetProtocol "file:subdir/archive.tar.gz#tar:/README.txt".toList = "tar".toList
      ∧ GetLeftLocation "file:subdir/archive.tar.gz#tar:/README.txt".toList
          = "file:subdir/archive.tar.gz".toList
      ∧ GetRightLocation "file:subdir/archive.tar.gz#tar:/README.txt".toList
          = "/README.txt".toList)
    ∧ (GetProtocol "file:archive.dat#zip:inner/file.txt".toList = "zip".toList
      ∧ GetLeftLocation "file:archive.dat#zip:inner/file.txt".toList
          = "file:archive.dat".toList
      ∧ GetRightLocation "file:archive.dat#zip:inner/file.txt".toList
          = "inner/file.txt".toList
      ∧ GetAnchor "file:archive.dat#zip:inner/file.txt".toList = []) := by
  refine ⟨?_, by decide, by decide⟩
  have hlen : ((L ++ '#' :: p).length == 1) = false := by
    cases p with
    | nil => exact absurd rfl hp
    | cons c cs =>
      rw [beq_eq_false_iff_ne]
      simp only [List.length_append, List.length_cons]
      omega
  have hsplit : splitAtProtocolColon (L ++ '#' :: p ++ ':' :: R) = some (L ++ '#' :: p, R) := by
    apply splitAtLastFrom_append_cons
    · simp only [isProtocolColon, Nat.zero_add, beq_self_eq_true, Bool.true_and, hlen,
        Bool.false_and, Bool.not_false]
    · intro j x hx
      simp [isProtocolColon, (hR x hx).1]
  have hhash : splitAtLastHash (L ++ '#' :: p) = some (L, p) :=
    splitAtLastHash_append_cons L p (fun x hx => (hpc x hx).2)
  refine ⟨?_, ?_, ?_, ?_⟩
  · simp only [GetProtocol, hsplit, hhash]
  · simp only [GetLeftLocation, hsplit, hhash]
  · simp only [GetRightLocation, hsplit]
  · have h2 : splitAtLastHash (L ++ '#' :: p ++ ':' :: R) = some (L, p ++ ':' :: R) := by
      have h3 := splitAtLastHash_append_cons L (p ++ ':' :: R) (by
        intro x hx
        rcases List.mem_append.mp hx with h | h
        · exact (hpc x h).2
        · rcases List.mem_cons.mp h with h | h
          · rw [h]; decide
          · exact (hR x h).2)
      rw [List.append_assoc, List.cons_append]
      exact h3
    have hcont : (p ++ ':' :: R).contains ':' = true := by
      rw [List.contains_iff_exists_mem_beq]
      exact ⟨':', List.mem_append_right _ (List.mem_cons_self _ _), by simp⟩
    simp only [GetAnchor, h2, hcont, if_true]

open wxFileSystemHandler in
/-- Witness of C6: the location `http://host/a.zip#zip:dir/x.h`. -/
theorem C6_chained_decomposition_witness :
    GetProtocol ("http://host/a.zip".toList ++ '#' :: "zip".toList ++ ':' :: "dir/x.h".toList)
        = "zip".toList
      ∧ GetLeftLocation
          ("http://host/a.zip".toList ++ '#' :: "zip".toList ++ ':' :: "dir/x.h".toList)
        = "http://host/a.zip".toList :=
  have h := (C6_chained_decomposition "http://host/a.zip".toList "zip".toList
    "dir/x.h".toList (by decide) (by decide) (by decide)).1
  ⟨h.1, h.2.1⟩

theorem splitAtLastFrom_eq_none (q : Char → Bool) (l : List Char) (i : Nat)
    (h : splitAtLastFrom (fun _ c => q c) i l = none) : ∀ x ∈ l, q x = false := by
  induction l generalizing i with
  | nil => intro x hx; exact absurd hx (List.not_mem_nil _)
  | cons d ds ih =>
    simp only [splitAtLastFrom] at h
    cases h1 : splitAtLastFrom (fun _ c => q c) (i + 1) ds with
    | some r => rw [h1] at h; exact absurd h (by simp)
    | none =>
      rw [h1] at h
      simp only at h
      by_cases hq : q d = true
      · rw [if_pos hq] at h; exact absurd h (by simp)
      · intro x hx
        rcases List.mem_cons.mp hx with h2 | h2
        · rw [h2]; simpa using hq
        · exact ih (i + 1) h1 x h2

theorem splitAtLastFrom_right (q : Char → Bool) (l a b : List Char) (i : Nat)
    (h : splitAtLastFrom (fun _ c => q c) i l = some (a, b)) : ∀ x ∈ b, q x = false := by
  induction l generalizing i a with
  | nil => simp [splitAtLastFrom] at h
  | cons d ds ih =>
    simp only [splitAtLastFrom] at h
    cases h1 : splitAtLastFrom (fun _ c => q c) (i + 1) ds with
    | some r =>
      obtain ⟨a1, b1⟩ := r
      rw [h1] at h
      simp only [Option.some.injEq, Prod.mk.injEq] at h
      exact ih a1 (i + 1) (by rw [h1, h.2])
    | none =>
      rw [h1] at h
      simp only at h
      by_cases hq : q d = true
      · rw [if_pos hq] at h
        simp only [Option.some.injEq, Prod.mk.injEq] at h
        rw [← h.2]
        exact splitAtLastFrom_eq_none q ds (i + 1) h1
      · rw [if_neg hq] at h; exact absurd h (by simp)

theorem getAnchor_chars (loc : wxString) :
    ∀ c ∈ wxFileSystemHandler.GetAnchor loc, c ≠ ':' ∧ c ≠ '#' := by
  unfold wxFileSystemHandler.GetAnchor
  cases h : splitAtLastHash loc with
  | none => intro c hc; exact absurd hc (List.not_mem_nil _)
  | some r =>
    obtain ⟨a, b⟩ := r
    simp only
    by_cases hb : b.contains ':' = true
    · rw [if_pos hb]; intro c hc; exact absurd hc (List.not_mem_nil _)
    · rw [if_neg hb]
      intro c hc
      constructor
      · intro hcc
        apply hb
        rw [List.contains_iff_exists_mem_beq]
        exact ⟨c, hc, by simp [hcc]⟩
      · have h2 := splitAtLastFrom_right (fun c => c == '#') loc a b 0 h c hc
        simpa using h2

open wxFileSystemHandler in
/-- C7: when the final `'#'` of a location has no `':'` to its right, `GetAnchor`
is exactly the text after that `'#'` and `GetLeftLocation` ends before that
`'#'` (it is a prefix of the text in front of it); when a `':'` stands to the
right of the final `'#'`, that `'#'` is a protocol separator and the anchor is
empty; no anchor ever contains a `':'` or a `'#'`, so no `'#'` followed by a
`':'` starts one; the two anchors of the header hold. -/
theorem C7_anchor_extraction (A B X Y loc : wxString)
    (hB : ∀ c ∈ B, c ≠ ':' ∧ c ≠ '#') (hY : ∀ c ∈ Y, c ≠ '#') (hYc : ':' ∈ Y) :
    GetAnchor (A ++ '#' :: B) = B
      ∧ GetLeftLocation (A ++ '#' :: B) <+: A
      ∧ GetAnchor (X ++ '#' :: Y) = []
      ∧ (∀ c ∈ GetAnchor loc, c ≠ ':' ∧ c ≠ '#')
      ∧ GetAnchor "file:subdir/archive.tar.gz#tar:/README.txt#anchor".toList = "anchor".toList
      ∧ GetAnchor "index.htm#chapter2".toList = "chapter2".toList := by
  refine ⟨?_, ?_, ?_, getAnchor_chars loc, by decide, by decide⟩
  · simp only [GetAnchor, splitAtLastHash_append_cons A B (fun x hx => (hB x hx).2),
      contains_colon_false B (fun x hx => (hB x hx).1), Bool.false_eq_true, if_false]
  · have hstrip := stripPlainAnchor_append_cons A B hB
    have hsp : splitAtProtocolColon (A ++ '#' :: B)
        = (splitAtLastFrom (isProtocolColon (A ++ '#' :: B)) 0 A).map
            (fun q => (q.1, q.2 ++ '#' :: B)) := by
      apply splitAtLastFrom_append_right
      intro j x hx
      rcases List.mem_cons.mp hx with h | h
      · rw [h]; simp [isProtocolColon]
      · simp [isProtocolColon, (hB x h).1]
    cases h1 : splitAtLastFrom (isProtocolColon (A ++ '#' :: B)) 0 A with
    | none =>
      rw [h1] at hsp
      simp only [GetLeftLocation, hsp, Option.map_none', hstrip]
      exact List.prefix_refl A
    | some q =>
      obtain ⟨a, b⟩ := q
      rw [h1] at hsp
      obtain ⟨c, hc⟩ := splitAtLastFrom_prefix _ _ _ _ _ h1
      simp only [GetLeftLocation, hsp, Option.map_some']
      cases h2 : splitAtLastHash a with
      | none =>
        simp only [hstrip]
        exact List.prefix_refl A
      | some q2 =>
        obtain ⟨l2, r2⟩ := q2
        obtain ⟨c2, hc2⟩ := splitAtLastFrom_prefix _ _ _ _ _ h2
        simp only
        rw [hc, hc2, List.append_assoc]
        exact List.prefix_append _ _
  · have hcont : Y.contains ':' = true := by
      rw [List.contains_iff_exists_mem_beq]
      exact ⟨':', hYc, by simp⟩
    simp only [GetAnchor, splitAtLastHash_append_cons X Y hY, hcont, if_true]

open wxFileSystemHandler in
/-- Witness of C7: `a.htm#top`, and `a.zip#zip:x` whose `'#'` is a separator. -/
theorem C7_anchor_extraction_witness :
    GetAnchor ("a.htm".toList ++ '#' :: "top".toList) = "top".toList
      ∧ GetAnchor ("a.zip".toList ++ '#' :: "zip:x".toList) = [] :=
  have h := C7_anchor_extraction "a.htm".toList "top".toList "a.zip".toList "zip:x".toList
    "a.zip#zip:x#top".toList (by decide) (by decide) (by decide)
  ⟨h.1, h.2.2.1⟩

/-! ### The current path -/

theorem changePathTo_file (fs : wxFileSystem) (D name : wxString)
    (hname : ∀ c ∈ name, c ≠ '/') :
    (wxFileSystem.ChangePathTo fs (D ++ '/' :: name) false).GetPath = D ++ ['/'] := by
  have hsplit : splitAtLastSlash (D ++ '/' :: name) = some (D, name) := by
    apply splitAtLastFrom_append_cons
    · simp
    · intro _ x hx
      simpa using hname x hx
  simp only [wxFileSystem.ChangePathTo, hsplit, wxFileSystem.GetPath, Bool.false_eq_true,
    if_false]

open wxFileSystem in
/-- C8: `ChangePathTo(D/name, false)` with `name` free of `'/'` sets the path to
`D/` (so `"dir/subdir/xh.htm"` gives `"dir/subdir/"`), and a following open
of `"image.png"` first resolves it to `GetPath() + "image.png"`, that is
`D/image.png`: when a handler opens that location, it is the file returned
and the last opened name. -/
theorem C8_changePathTo_strips_file_name (fs : wxFileSystem) (D name : wxString)
    (hname : ∀ c ∈ name, c ≠ '/') :
    (ChangePathTo fs (D ++ '/' :: name) false).GetPath = D ++ ['/']
      ∧ (ChangePathTo fs "dir/subdir/xh.htm".toList false).GetPath = "dir/subdir/".toList
      ∧ relativeLocation (ChangePathTo fs (D ++ '/' :: name) false) "image.png".toList
          = (ChangePathTo fs (D ++ '/' :: name) false).GetPath ++ "image.png".toList
      ∧ relativeLocation (ChangePathTo fs (D ++ '/' :: name) false) "image.png".toList
          = D ++ '/' :: "image.png".toList
      ∧ ∀ (ls gs : List Handler) (f : wxFSFile),
          openWith (ChangePathTo fs (D ++ '/' :: name) false) (ls ++ gs)
              (D ++ '/' :: "image.png".toList) = some f →
          OpenFile (ChangePathTo fs (D ++ '/' :: name) false) ls gs "image.png".toList
            = (some f, { (ChangePathTo fs (D ++ '/' :: name) false) with
                          m_LastName := D ++ '/' :: "image.png".toList }) := by
  have hpath := changePathTo_file fs D name hname
  have hrel : relativeLocation (ChangePathTo fs (D ++ '/' :: name) false) "image.png".toList
      = D ++ '/' :: "image.png".toList := by
    simp only [relativeLocation, hpath, List.append_assoc, List.singleton_append]
  refine ⟨hpath, changePathTo_file fs "dir/subdir".toList "xh.htm".toList (by decide),
    rfl, hrel, ?_⟩
  intro ls gs f hf
  simp only [OpenFile, hrel, hf]

open wxFileSystem in
/-- Witness of C8: `ChangePathTo("test/demo.htm")`. -/
theorem C8_changePathTo_strips_file_name_witness :
    (ChangePathTo ⟨[], []⟩ ("test".toList ++ '/' :: "demo.htm".toList) false).GetPath
      = "test".toList ++ ['/'] :=
  (C8_changePathTo_strips_file_name ⟨[], []⟩ "test".toList "demo.htm".toList (by decide)).1

/-! ### The chroot prefix -/

theorem splitPath_ne_nil (s : wxString) : splitPath s ≠ [] := by
  cases s with
  | nil => simp [splitPath]
  | cons c cs =>
    rw [splitPath]
    split
    · simp
    · split <;> simp

theorem splitPath_append_slash (x y : wxString) :
    splitPath (x ++ '/' :: y) = splitPath x ++ splitPath y := by
  induction x with
  | nil => simp [splitPath]
  | cons c cs ih =>
    rw [List.cons_append, splitPath, splitPath, ih]
    by_cases hc : (c == '/') = true
    · simp [hc]
    · simp only [hc, Bool.false_eq_true, if_false]
      cases h : splitPath cs with
      | nil => exact absurd h (splitPath_ne_nil cs)
      | cons x1 xs1 => rfl

theorem splitPath_no_slash (s : wxString) (hs : ∀ c ∈ s, c ≠ '/') : splitPath s = [s] := by
  induction s with
  | nil => rfl
  | cons c cs ih =>
    have hc : (c == '/') = false := by simpa using hs c (List.mem_cons_self _ _)
    rw [splitPath, ih (fun d hd => hs d (List.mem_cons_of_mem _ hd))]
    simp [hc]

theorem splitPath_mem_no_slash (s : wxString) :
    ∀ comp ∈ splitPath s, ∀ c ∈ comp, c ≠ '/' := by
  induction s with
  | nil => simp [splitPath]
  | cons c cs ih =>
    rw [splitPath]
    by_cases hc : (c == '/') = true
    · simp only [hc, if_true]
      intro comp hcomp
      rcases List.mem_cons.mp hcomp with h | h
      · rw [h]; simp
      · exact ih comp h
    · simp only [hc, Bool.false_eq_true, if_false]
      cases h : splitPath cs with
      | nil => exact absurd h (splitPath_ne_nil cs)
      | cons x1 xs1 =>
        rw [h] at ih
        intro comp hcomp d hd
        rcases List.mem_cons.mp hcomp with h1 | h1
        · rw [h1] at hd
          rcases List.mem_cons.mp hd with h2 | h2
          · rw [h2]; simpa using hc
          · exact ih x1 (List.mem_cons_self _ _) d h2
        · exact ih comp (List.mem_cons_of_mem _ h1) d hd

theorem splitPath_append_joinAbs (comps : List wxString)
    (hcomps : ∀ comp ∈ comps, ∀ c ∈ comp, c ≠ '/') (x : wxString) :
    splitPath (x ++ joinAbs comps) = splitPath x ++ comps := by
  induction comps generalizing x with
  | nil => simp [joinAbs]
  | cons c cs ih =>
    have h1 := ih (fun comp hc => hcomps comp (List.mem_cons_of_mem _ hc)) c
    rw [splitPath_no_slash c (hcomps c (List.mem_cons_self _ _))] at h1
    rw [joinAbs, List.cons_append, splitPath_append_slash, h1]
    rfl

theorem normalizeFrom_plain (cs : List wxString) (stack out : List wxString)
    (h : normalizeFrom stack cs = some out)
    (hstack : ∀ c ∈ stack, plainName c) (hcs : ∀ comp ∈ cs, ∀ d ∈ comp, d ≠ '/') :
    ∀ c ∈ out, plainName c := by
  induction cs generalizing stack with
  | nil =>
    simp only [normalizeFrom, Option.some.injEq] at h
    intro c hc
    rw [← h] at hc
    exact hstack c (List.mem_reverse.mp hc)
  | cons c cs ih =>
    have hcs1 : ∀ comp ∈ cs, ∀ d ∈ comp, d ≠ '/' :=
      fun comp hc => hcs comp (List.mem_cons_of_mem _ hc)
    rw [normalizeFrom.eq_def] at h
    simp only at h
    by_cases h1 : c = [] ∨ c = ['.']
    · rw [if_pos h1] at h
      exact ih stack h hstack hcs1
    · rw [if_neg h1] at h
      by_cases h2 : c = ['.', '.']
      · rw [if_pos h2] at h
        cases stack with
        | nil => exact absurd h (by simp)
        | cons t st =>
          exact ih st h (fun x hx => hstack x (List.mem_cons_of_mem _ hx)) hcs1
      · rw [if_neg h2] at h
        refine ih (c :: stack) h ?_ hcs1
        intro x hx
        rcases List.mem_cons.mp hx with h3 | h3
        · rw [h3]
          exact ⟨h1, h2, hcs c (List.mem_cons_self _ _)⟩
        · exact hstack x h3

theorem foldl_canonStep_plain (comps stack : List wxString)
    (hcomps : ∀ c ∈ comps, plainName c) :
    comps.foldl canonStep stack = comps.reverse ++ stack := by
  induction comps generalizing stack with
  | nil => rfl
  | cons c cs ih =>
    obtain ⟨h1, h2, _⟩ := hcomps c (List.mem_cons_self _ _)
    rw [List.foldl_cons, ih _ (fun x hx => hcomps x (List.mem_cons_of_mem _ hx))]
    simp [canonStep, h1, h2]

theorem canonical_append_joinAbs (root : wxString) (comps : List wxString)
    (hcomps : ∀ c ∈ comps, plainName c) :
    canonical (root ++ joinAbs comps) = canonical root ++ comps := by
  unfold canonical
  rw [splitPath_append_joinAbs comps (fun c hc => (hcomps c hc).2.2) root, List.foldl_append,
    foldl_canonStep_plain comps _ hcomps]
  simp

theorem climbsFrom_iff (cs : List wxString) (stack : List wxString) :
    climbsFrom stack.length cs = true ↔ normalizeFrom stack cs = none := by
  induction cs generalizing stack with
  | nil => simp [climbsFrom, normalizeFrom]
  | cons c cs ih =>
    rw [climbsFrom.eq_def, normalizeFrom.eq_def]
    simp only
    by_cases h1 : c = [] ∨ c = ['.']
    · rw [if_pos h1, if_pos h1]
      exact ih stack
    · rw [if_neg h1, if_neg h1]
      by_cases h2 : c = ['.', '.']
      · rw [if_pos h2, if_pos h2]
        cases stack with
        | nil => simp
        | cons t st => exact ih st
      · rw [if_neg h2, if_neg h2]
        exact ih (c :: stack)

theorem diskName_inside (h : wxLocalFSHandler) (location full : wxString)
    (hfull : h.diskName location = some full) :
    ∃ comps, normalizeFrom [] (splitPath (wxFileSystemHandler.GetRightLocation location))
          = some comps
      ∧ full = h.ms_root ++ joinAbs comps
      ∧ h.ms_root <+: full
      ∧ insideRoot h.ms_root full := by
  unfold wxLocalFSHandler.diskName at hfull
  cases hn : normalizeFrom [] (splitPath (wxFileSystemHandler.GetRightLocation location)) with
  | none => rw [hn] at hfull; exact absurd hfull (by simp)
  | some comps =>
    rw [hn] at hfull
    simp only [Option.some.injEq] at hfull
    have hplain := normalizeFrom_plain _ [] comps hn (fun _ hc => absurd hc (List.not_mem_nil _))
      (splitPath_mem_no_slash _)
    refine ⟨comps, rfl, hfull.symm, ?_, ?_⟩
    · rw [← hfull]; exact List.prefix_append _ _
    · unfold insideRoot
      rw [← hfull, canonical_append_joinAbs _ _ hplain]
      exact List.prefix_append _ _

theorem diskName_climbs (h : wxLocalFSHandler) (location : wxString)
    (hc : climbsAboveRoot (wxFileSystemHandler.GetRightLocation location) = true) :
    h.diskName location = none := by
  have hn := (climbsFrom_iff _ []).mp hc
  simp only [wxLocalFSHandler.diskName, hn]

theorem openFile_eq (h : wxLocalFSHandler) (st : Storage) (mimeOf : wxString → wxString)
    (location : wxString) :
    h.OpenFile st mimeOf location =
      match h.diskName location with
      | none => (none, [])
      | some full =>
        match st.openFile full with
        | some q =>
          (some (wxFSFile.ctor (some q.1) location (mimeOf location)
            (wxFileSystemHandler.GetAnchor location) q.2), [full])
        | none => (none, [full]) := by
  unfold wxLocalFSHandler.OpenFile Storage.openAt
  cases h.diskName location with
  | none => rfl
  | some full =>
    simp only
    cases st.openFile full with
    | none => rfl
    | some q => rfl

theorem findFirst_eq (h : wxLocalFSHandler) (st : Storage) (spec : wxString) (flags : Int) :
    h.FindFirst st spec flags =
      match h.diskName spec with
      | none => ([], { h with cursor := [] }, [])
      | some full =>
        match st.findFiles full flags with
        | [] => ([], { h with cursor := [] }, [full])
        | found :: rest => (found, { h with cursor := rest }, [full]) := by
  unfold wxLocalFSHandler.FindFirst Storage.findAt
  cases h.diskName spec with
  | none => rfl
  | some full =>
    simp only
    cases st.findFiles full flags with
    | nil => rfl
    | cons found rest => rfl

theorem openFile_accessed (h : wxLocalFSHandler) (st : Storage)
    (mimeOf : wxString → wxString) (location name : wxString)
    (hname : name ∈ (h.OpenFile st mimeOf location).2) :
    h.diskName location = some name := by
  rw [openFile_eq] at hname
  cases hd : h.diskName location with
  | none => simp [hd] at hname
  | some full =>
    simp only [hd] at hname
    cases hk : st.openFile full with
    | none => simp [hk] at hname; rw [hname]
    | some q => simp [hk] at hname; rw [hname]

theorem findFirst_accessed (h : wxLocalFSHandler) (st : Storage) (spec : wxString)
    (flags : Int) (name : wxString) (hname : name ∈ (h.FindFirst st spec flags).2.2) :
    h.diskName spec = some name := by
  rw [findFirst_eq] at hname
  cases hd : h.diskName spec with
  | none => simp [hd] at hname
  | some full =>
    simp only [hd] at hname
    cases hk : st.findFiles full flags with
    | nil => simp [hk] at hname; rw [hname]
    | cons found rest => simp [hk] at hname; rw [hname]

theorem findFirst_root (h : wxLocalFSHandler) (st : Storage) (spec : wxString) (flags : Int) :
    (h.FindFirst st spec flags).2.1.ms_root = h.ms_root := by
  rw [findFirst_eq]
  cases h.diskName spec with
  | none => rfl
  | some full =>
    simp only
    cases st.findFiles full flags with
    | nil => rfl
    | cons found rest => rfl

theorem findNext_root (h : wxLocalFSHandler) : (h.FindNext).2.ms_root = h.ms_root := by
  unfold wxLocalFSHandler.FindNext
  cases h.cursor with
  | nil => rfl
  | cons found rest => rfl

theorem stepCall_root (st : Storage) (mimeOf : wxString → wxString) (h : wxLocalFSHandler)
    (c : LocalCall) : (stepCall st mimeOf h c).1.ms_root = h.ms_root := by
  cases c with
  | canOpen location => rfl
  | openFile location => rfl
  | findFirst spec flags => exact findFirst_root h st spec flags
  | findNext => exact findNext_root h

theorem stepCall_accessed (st : Storage) (mimeOf : wxString → wxString)
    (h : wxLocalFSHandler) (c : LocalCall) (name : wxString)
    (hname : name ∈ (stepCall st mimeOf h c).2) :
    h.ms_root <+: name ∧ insideRoot h.ms_root name := by
  cases c with
  | canOpen location => exact absurd hname (List.not_mem_nil _)
  | openFile location =>
    obtain ⟨_, _, _, h3, h4⟩ :=
      diskName_inside h location name (openFile_accessed h st mimeOf location name hname)
    exact ⟨h3, h4⟩
  | findFirst spec flags =>
    obtain ⟨_, _, _, h3, h4⟩ :=
      diskName_inside h spec name (findFirst_accessed h st spec flags name hname)
    exact ⟨h3, h4⟩
  | findNext => exact absurd hname (List.not_mem_nil _)

theorem runCalls_accessed (st : Storage) (mimeOf : wxString → wxString)
    (calls : List LocalCall) (h : wxLocalFSHandler) (name : wxString)
    (hname : name ∈ (runCalls st mimeOf h calls).2) :
    h.ms_root <+: name ∧ insideRoot h.ms_root name := by
  induction calls generalizing h with
  | nil => exact absurd hname (List.not_mem_nil _)
  | cons c cs ih =>
    simp only [runCalls] at hname
    rcases List.mem_append.mp hname with h1 | h1
    · exact stepCall_accessed st mimeOf h c name h1
    · have h2 := ih _ h1
      rw [stepCall_root] at h2
      exact h2

theorem openFile_agree (h : wxLocalFSHandler) (st st2 : Storage)
    (mimeOf : wxString → wxString) (location : wxString)
    (hag : agreeInside h.ms_root st st2) :
    h.OpenFile st mimeOf location = h.OpenFile st2 mimeOf location := by
  rw [openFile_eq, openFile_eq]
  cases hd : h.diskName location with
  | none => rfl
  | some full =>
    obtain ⟨_, _, _, h3, h4⟩ := diskName_inside h location full hd
    simp only [(hag full h3 h4).1]

theorem findFirst_agree (h : wxLocalFSHandler) (st st2 : Storage)
    (spec : wxString) (flags : Int) (hag : agreeInside h.ms_root st st2) :
    h.FindFirst st spec flags = h.FindFirst st2 spec flags := by
  rw [findFirst_eq, findFirst_eq]
  cases hd : h.diskName spec with
  | none => rfl
  | some full =>
    obtain ⟨_, _, _, h3, h4⟩ := diskName_inside h spec full hd
    simp only [(hag full h3 h4).2 flags]

theorem stepCall_agree (h : wxLocalFSHandler) (st st2 : Storage)
    (mimeOf : wxString → wxString) (c : LocalCall) (hag : agreeInside h.ms_root st st2) :
    stepCall st mimeOf h c = stepCall st2 mimeOf h c := by
  cases c with
  | canOpen location => rfl
  | openFile location => simp only [stepCall, openFile_agree h st st2 mimeOf location hag]
  | findFirst spec flags => simp only [stepCall, findFirst_agree h st st2 spec flags hag]
  | findNext => rfl

theorem runCalls_agree (st st2 : Storage) (mimeOf : wxString → wxString)
    (calls : List LocalCall) (h : wxLocalFSHandler) (hag : agreeInside h.ms_root st st2) :
    runCalls st mimeOf h calls = runCalls st2 mimeOf h calls := by
  induction calls generalizing h with
  | nil => rfl
  | cons c cs ih =>
    have h1 := stepCall_agree h st st2 mimeOf c hag
    have h2 := ih (stepCall st mimeOf h c).1 (by rw [stepCall_root]; exact hag)
    simp only [runCalls]
    rw [h2, h1]

theorem openFile_source (h : wxLocalFSHandler) (st : Storage)
    (mimeOf : wxString → wxString) (location : wxString) (f : wxFSFile)
    (hf : (h.OpenFile st mimeOf location).1 = some f) :
    ∃ name stream modif, h.diskName location = some name
      ∧ st.openFile name = some (stream, modif)
      ∧ (h.OpenFile st mimeOf location).2 = [name]
      ∧ f = wxFSFile.ctor (some stream) location (mimeOf location)
            (wxFileSystemHandler.GetAnchor location) modif := by
  rw [openFile_eq] at hf ⊢
  cases hd : h.diskName location with
  | none => simp [hd] at hf
  | some full =>
    simp only [hd] at hf ⊢
    cases hk : st.openFile full with
    | none => simp [hk] at hf
    | some q =>
      simp only [hk, Option.some.injEq] at hf ⊢
      exact ⟨full, q.1, q.2, rfl, hk, rfl, hf.symm⟩

open wxLocalFSHandler in
/-- C9: after `Chroot(root)`, every name that any sequence of `CanOpen`,
`OpenFile`, `FindFirst` and `FindNext` calls hands to storage starts with
`root` and resolves to a place inside `root`; the name `OpenFile` and
`FindFirst` use is `root` followed by the normalized absolute form of the
requested name; what the calls return does not depend on anything stored
outside `root` (two storages that agree inside `root` give the same files,
matches, cursor and accesses); a file that `OpenFile` returns carries the
stream storage gave for that one name inside `root`; a request whose `".."`
components climb above the root yields no file, no match and no access,
whatever is stored, as does `"../../etc/passwd"` under root `"/srv/data"`. -/
theorem C9_chroot_confinement (h : wxLocalFSHandler) (root location spec : wxString)
    (flags : Int) (st st2 : Storage) (mimeOf : wxString → wxString)
    (calls : List LocalCall) :
    (∀ name ∈ (runCalls st mimeOf (h.Chroot root) calls).2,
        root <+: name ∧ insideRoot root name)
      ∧ (∀ name ∈ ((h.Chroot root).OpenFile st mimeOf location).2,
          ∃ comps,
            normalizeFrom [] (splitPath (wxFileSystemHandler.GetRightLocation location))
                = some comps
              ∧ name = root ++ joinAbs comps)
      ∧ (∀ name ∈ ((h.Chroot root).FindFirst st spec flags).2.2,
          ∃ comps,
            normalizeFrom [] (splitPath (wxFileSystemHandler.GetRightLocation spec))
                = some comps
              ∧ name = root ++ joinAbs comps)
      ∧ (agreeInside root st st2 →
          (h.Chroot root).OpenFile st mimeOf location
              = (h.Chroot root).OpenFile st2 mimeOf location
            ∧ (h.Chroot root).FindFirst st spec flags
              = (h.Chroot root).FindFirst st2 spec flags
            ∧ runCalls st mimeOf (h.Chroot root) calls
              = runCalls st2 mimeOf (h.Chroot root) calls)
      ∧ (∀ f, ((h.Chroot root).OpenFile st mimeOf location).1 = some f →
          ∃ name stream modif,
            root <+: name ∧ insideRoot root name
              ∧ st.openFile name = some (stream, modif)
              ∧ ((h.Chroot root).OpenFile st mimeOf location).2 = [name]
              ∧ f = wxFSFile.ctor (some stream) location (mimeOf location)
                    (wxFileSystemHandler.GetAnchor location) modif)
      ∧ (climbsAboveRoot (wxFileSystemHandler.GetRightLocation location) = true →
          (h.Chroot root).OpenFile st mimeOf location = (none, []))
      ∧ (climbsAboveRoot (wxFileSystemHandler.GetRightLocation spec) = true →
          ((h.Chroot root).FindFirst st spec flags).1 = []
            ∧ ((h.Chroot root).FindFirst st spec flags).2.2 = [])
      ∧ climbsAboveRoot "../../etc/passwd".toList = true
      ∧ (h.Chroot "/srv/data".toList).OpenFile st mimeOf "../../etc/passwd".toList
          = (none, [])
      ∧ ((h.Chroot "/srv/data".toList).OpenFile st mimeOf "/docs/index.htm".toList).2
          = ["/srv/data/docs/index.htm".toList] := by
  have hclimb : ∀ (r loc : wxString),
      climbsAboveRoot (wxFileSystemHandler.GetRightLocation loc) = true →
        (h.Chroot r).OpenFile st mimeOf loc = (none, []) := by
    intro r loc hc
    rw [openFile_eq, diskName_climbs _ loc hc]
  refine ⟨?_, ?_, ?_, ?_, ?_, hclimb root location, ?_, by decide,
    hclimb _ _ (by decide), ?_⟩
  · intro name hname
    exact runCalls_accessed st mimeOf calls (h.Chroot root) name hname
  · intro name hname
    obtain ⟨comps, h1, h2, _, _⟩ :=
      diskName_inside (h.Chroot root) location name (openFile_accessed _ _ _ _ _ hname)
    exact ⟨comps, h1, h2⟩
  · intro name hname
    obtain ⟨comps, h1, h2, _, _⟩ :=
      diskName_inside (h.Chroot root) spec name (findFirst_accessed _ _ _ _ _ hname)
    exact ⟨comps, h1, h2⟩
  · intro hag
    exact ⟨openFile_agree (h.Chroot root) st st2 mimeOf location hag,
      findFirst_agree (h.Chroot root) st st2 spec flags hag,
      runCalls_agree st st2 mimeOf calls (h.Chroot root) hag⟩
  · intro f hf
    obtain ⟨name, stream, modif, h1, h2, h3, h4⟩ :=
      openFile_source (h.Chroot root) st mimeOf location f hf
    obtain ⟨_, _, _, h5, h6⟩ := diskName_inside (h.Chroot root) location name h1
    exact ⟨name, stream, modif, h5, h6, h2, h3, h4⟩
  · intro hc
    rw [findFirst_eq, diskName_climbs _ spec hc]
    exact ⟨rfl, rfl⟩
  · have hn : normalizeFrom []
        (splitPath (wxFileSystemHandler.GetRightLocation "/docs/index.htm".toList))
        = some ["docs".toList, "index.htm".toList] := by decide
    rw [openFile_eq]
    simp only [diskName, hn, Chroot]
    cases st.openFile ("/srv/data".toList ++ joinAbs ["docs".toList, "index.htm".toList]) with
    | none => rfl
    | some q => rfl

open wxLocalFSHandler in
/-- Witness of C9: root `"/srv/data"` and the request `"a/../../x"` on a storage
that has every file. -/
theorem C9_chroot_confinement_witness :
    climbsAboveRoot (wxFileSystemHandler.GetRightLocation "a/../../x".toList) = true
      ∧ (Chroot ⟨[], []⟩ "/srv/data".toList).OpenFile ⟨fun _ => some (3, 0), fun _ _ => []⟩
          (fun _ => []) "a/../../x".toList = (none, []) :=
  ⟨by decide, (C9_chroot_confinement ⟨[], []⟩ "/srv/data".toList "a/../../x".toList
    "*.htm".toList 0 ⟨fun _ => some (3, 0), fun _ _ => []⟩
    ⟨fun _ => some (3, 0), fun _ _ => []⟩ (fun _ => []) []).2.2.2.2.2.1 (by decide)⟩

end WxFileSys
